import Mathlib

/-!
A shallow embedding of the LRU cache implemented in
`src/cpp/src/cache/Cache.cpp` (namespace `zilliz::milvus::cache`),
together with proofs about its operations.

The `Cache` class stores string-keyed entries in a recency index `lru_`
(class `LRU`, whose contract is: a key-to-entry map with a total recency
order, most-recently-used first; `get` touches the key to the
most-recently-used end; `put` inserts/overwrites at the most-recently-used
end; a reverse traversal `rbegin()`/`rend()` runs from least-recently-used
to most-recently-used).  The `LRU` class itself is not part of the sources
here; its behaviour is modelled from the specification of the Recency
Index (spec section 4.1).  All `Cache` member functions are translated
directly from `Cache.cpp`.

Integer types: `usage_` and `capacity_` are `int64_t`, entry sizes are
`size_t` (non-negative).  They are modelled as `Int` and `Nat`; no value
in any operation here approaches the 64-bit overflow boundary, and no
claim depends on wrap-around.  The eviction threshold
`int64_t threshhold = capacity_ * freemem_percent_` multiplies by the
`double` constant `0.85` and converts the product to `int64_t`, which
truncates toward zero; for every |capacity| below about `4 * 10^14` the
double computation is exact enough that the result equals the truncated
rational `capacity * 85 / 100`, which is how it is modelled
(`Int.tdiv (capacity * 85) 100`).

Locks (`mutex_`) serialize the critical sections; in the sequential
executions considered here they have no observable effect and are not
modelled.
-/

/-- Modelled from the spec: the payload object (`DataObjPtr`).  The cache
treats it as opaque apart from its reported byte size (`data_ptr->size()`,
a `size_t`); `tag` stands for the identity of the payload reference so
that overwriting can be observed. -/
structure DataObj where
  size : Nat
  tag : Nat
  deriving DecidableEq, Repr

/-- The recency index as a sequence of (key, payload) pairs, ordered from
most-recently-used (head) to least-recently-used (tail).  In the source
this is the `LRU` structure `lru_` (hash map + recency list); modelled
from the spec (section 4.1) because the `LRU` sources are not present. -/
abbrev LruList := List (String × DataObj)

/-- Modelled from the spec: `lru_.exists(key)` / `lru_.get(key)` key
lookup.  Returns the payload stored for `key` (first occurrence; the
recency index never holds two entries for one key). -/
def lruFind (k : String) : LruList → Option DataObj
  | [] => none
  | e :: rest => if e.1 = k then some e.2 else lruFind k rest

/-- Modelled from the spec: `lru_.exists(key)`. -/
def lruExists (k : String) (l : LruList) : Bool :=
  (lruFind k l).isSome

/-- Modelled from the spec: removal of `key`'s entry from the recency
index (`lru_.erase(key)` removes the unique entry of that key; here the
first occurrence). -/
def lruEraseKey (k : String) : LruList → LruList
  | [] => []
  | e :: rest => if e.1 = k then rest else e :: lruEraseKey k rest

/-- Sum of the stored sizes of all entries of the recency index, as an
`Int` (the type of the `usage_` accumulator). -/
def lruSizeSum (l : LruList) : Int :=
  (l.map fun e => (e.2.size : Int)).sum

/-- No key occurs twice in the recency index (spec section 3: "the index
never holds two entries for the same key"; guaranteed structurally by the
`LRU` hash map in the source). -/
def NoDupKeys (l : LruList) : Prop :=
  (l.map Prod.fst).Nodup

instance (l : LruList) : Decidable (NoDupKeys l) := by
  unfold NoDupKeys; infer_instance

/-- The cache state: `usage_` (int64), `capacity_` (int64) and the
recency index `lru_`.  `freemem_percent_` is the compile-time constant
`DEFAULT_THRESHHOLD_PERCENT = 0.85` and is never changed, so it is not a
field.  The `cache_max_count` bound of the `LRU` constructor is not
modelled (the optional count backstop of spec section 4.1 is unused by
the claims). -/
structure Cache where
  usage : Int
  capacity : Int
  lru : LruList
  deriving DecidableEq, Repr

/-- `Cache::Cache(capacity, cache_max_count)`: usage starts at 0. -/
def Cache.construct (capacity : Int) : Cache :=
  { usage := 0, capacity := capacity, lru := [] }

/-- `Cache::size()`. -/
def Cache.count (s : Cache) : Nat :=
  s.lru.length

/-- `Cache::exists(key)`. -/
def Cache.existsKey (k : String) (s : Cache) : Bool :=
  lruExists k s.lru

/-- `Cache::get(key)`: `nullptr` (`none`) if absent; otherwise
`lru_.get(key)` touches the key to the most-recently-used end and its
payload is returned. -/
def Cache.get (k : String) (s : Cache) : Option DataObj × Cache :=
  match lruFind k s.lru with
  | none => (none, s)
  | some d => (some d, { s with lru := (k, d) :: lruEraseKey k s.lru })

/-- `Cache::erase(key)`: silently returns if the key is absent; otherwise
subtracts the entry's size from `usage_` and removes the entry.  (The
source first calls `lru_.get(key)`, which touches the key, and then
`lru_.erase(key)`; touching an entry and then removing it leaves the same
index as removing it in place.) -/
def Cache.erase (k : String) (s : Cache) : Cache :=
  match lruFind k s.lru with
  | none => s
  | some d => { s with usage := s.usage - (d.size : Int), lru := lruEraseKey k s.lru }

/-- `Cache::clear()`. -/
def Cache.clear (s : Cache) : Cache :=
  { s with lru := [], usage := 0 }

/-- The critical section of `Cache::insert` (lines 54-72): overwrite the
payload and adjust `usage_` by the size difference if the key exists
(`lru_.get` having touched the key to the most-recently-used end),
otherwise `lru_.put` a fresh entry and add its size. -/
def Cache.insertRaw (k : String) (d : DataObj) (s : Cache) : Cache :=
  match lruFind k s.lru with
  | some old =>
      { s with usage := s.usage - (old.size : Int) + (d.size : Int),
               lru := (k, d) :: lruEraseKey k s.lru }
  | none =>
      { s with usage := s.usage + (d.size : Int),
               lru := (k, d) :: s.lru }

/-- `int64_t threshhold = capacity_ * freemem_percent_;` — the `double`
product `capacity * 0.85` converted to `int64_t` (truncation toward
zero), modelled exactly as the truncated rational (see the file header).
Spelling `threshhold` is the source's. -/
def Cache.threshhold (s : Cache) : Int :=
  Int.tdiv (s.capacity * 85) 100

/-- The collection loop of `Cache::free_memory` (lines 173-182): walk the
recency index from the least-recently-used end, collecting entries while
the released size so far is below `delta`. -/
def collectRelease : LruList → Int → Int → LruList
  | [], _, _ => []
  | e :: rest, delta, released =>
      if released < delta then e :: collectRelease rest delta (released + (e.2.size : Int))
      else []

/-- The entries `Cache::free_memory` selects for release: the traversal
starts at `lru_.rbegin()` (least-recently-used first, i.e. the reverse of
the recency list) with `released_size = 0` and
`delta_size = usage_ - threshhold`. -/
def Cache.releaseEntries (s : Cache) : LruList :=
  collectRelease s.lru.reverse (s.usage - s.threshhold) 0

/-- `Cache::free_memory()`: no-op unless `usage_ > capacity_`; otherwise
erase every collected key.  (The source gathers the keys into a
`std::set` before erasing; the keys collected are pairwise distinct
whenever the recency index holds no duplicate key, and `Cache::erase`
calls on distinct keys commute, so erasing in traversal order is the
same.) -/
def Cache.free_memory (s : Cache) : Cache :=
  if s.usage ≤ s.capacity then s
  else ((s.releaseEntries).map Prod.fst).foldl (fun st k => st.erase k) s

/-- `Cache::insert(key, data_ptr)`: the locked index mutation, then —
after the lock is released — `free_memory()` if `usage_ > capacity_`. -/
def Cache.insert (k : String) (d : DataObj) (s : Cache) : Cache :=
  if (s.insertRaw k d).capacity < (s.insertRaw k d).usage then (s.insertRaw k d).free_memory
  else s.insertRaw k d

/-- `Cache::set_capacity(capacity)`: only a positive capacity is
installed, followed immediately by `free_memory()`. -/
def Cache.set_capacity (c : Int) (s : Cache) : Cache :=
  if 0 < c then Cache.free_memory { s with capacity := c } else s

/-- The cache states reachable by a sequential execution from a freshly
constructed cache through the public operations (insert, erase, clear,
get, set_capacity) and the eviction routine. -/
inductive Reachable : Cache → Prop
  | construct (c : Int) : Reachable (Cache.construct c)
  | insert (k : String) (d : DataObj) (s : Cache) :
      Reachable s → Reachable (s.insert k d)
  | erase (k : String) (s : Cache) :
      Reachable s → Reachable (s.erase k)
  | clear (s : Cache) : Reachable s → Reachable s.clear
  | get (k : String) (s : Cache) :
      Reachable s → Reachable (s.get k).2
  | set_capacity (c : Int) (s : Cache) :
      Reachable s → Reachable (s.set_capacity c)
  | free_memory (s : Cache) : Reachable s → Reachable s.free_memory

/-- The combined state invariant: `usage_` is the sum of the stored entry
sizes, and no key occurs twice in the recency index. -/
def CacheInv (s : Cache) : Prop :=
  s.usage = lruSizeSum s.lru ∧ NoDupKeys s.lru

instance (s : Cache) : Decidable (CacheInv s) := by
  unfold CacheInv
  infer_instance

/-! ### Basic lemmas about the recency-index primitives -/

theorem lruFind_eq_none_iff (k : String) (l : LruList) :
    lruFind k l = none ↔ k ∉ l.map Prod.fst := by
  induction l with
  | nil => simp [lruFind]
  | cons e rest ih =>
      by_cases h : e.1 = k
      · simp [lruFind, h]
      · simp [lruFind, h, ih, Ne.symm h]

theorem lruFind_eq_some_of_nodup (k : String) (d : DataObj) (l : LruList)
    (hnd : NoDupKeys l) (hm : (k, d) ∈ l) : lruFind k l = some d := by
  induction l with
  | nil => simp at hm
  | cons e rest ih =>
      rcases List.mem_cons.mp hm with hm | hm
      · simp [← hm, lruFind]
      · have hk : k ∈ rest.map Prod.fst := List.mem_map_of_mem Prod.fst hm
        have he : e.1 ≠ k := by
          intro h
          exact (List.nodup_cons.mp hnd).1 (h ▸ hk)
        simp only [lruFind, if_neg he]
        exact ih (List.nodup_cons.mp hnd).2 hm

theorem mem_of_lruFind_eq_some {k : String} {d : DataObj} {l : LruList}
    (h : lruFind k l = some d) : (k, d) ∈ l := by
  induction l with
  | nil => simp [lruFind] at h
  | cons e rest ih =>
      by_cases he : e.1 = k
      · simp only [lruFind, if_pos he, Option.some.injEq] at h
        have hed : e = (k, d) := by
          cases e
          simp_all
        rw [hed]
        exact List.mem_cons_self _ _
      · simp only [lruFind, if_neg he] at h
        exact List.mem_cons_of_mem _ (ih h)

theorem lruEraseKey_sublist (k : String) (l : LruList) :
    List.Sublist (lruEraseKey k l) l := by
  induction l with
  | nil => simp [lruEraseKey]
  | cons e rest ih =>
      by_cases h : e.1 = k
      · rw [lruEraseKey, if_pos h]
        exact List.sublist_cons_self e rest
      · simpa [lruEraseKey, h] using ih.cons₂ e

theorem noDupKeys_lruEraseKey (k : String) (l : LruList) (h : NoDupKeys l) :
    NoDupKeys (lruEraseKey k l) :=
  h.sublist ((lruEraseKey_sublist k l).map Prod.fst)

theorem lruFind_lruEraseKey_ne (k k' : String) (l : LruList) (hne : k ≠ k') :
    lruFind k (lruEraseKey k' l) = lruFind k l := by
  induction l with
  | nil => simp [lruEraseKey]
  | cons e rest ih =>
      simp only [lruEraseKey]
      by_cases h : e.1 = k'
      · rw [if_pos h]
        have hek : e.1 ≠ k := fun hh => hne (hh ▸ h)
        simp [lruFind, hek]
      · rw [if_neg h]
        by_cases h2 : e.1 = k
        · simp [lruFind, h2]
        · simp [lruFind, h2, ih]

theorem lruFind_lruEraseKey_self (k : String) (l : LruList) (hnd : NoDupKeys l) :
    lruFind k (lruEraseKey k l) = none := by
  induction l with
  | nil => simp [lruEraseKey, lruFind]
  | cons e rest ih =>
      by_cases h : e.1 = k
      · simp only [lruEraseKey, if_pos h]
        rw [lruFind_eq_none_iff]
        intro hk
        exact (List.nodup_cons.mp hnd).1 (h ▸ hk)
      · simp only [lruEraseKey, if_neg h, lruFind, if_neg h]
        exact ih (List.nodup_cons.mp hnd).2

theorem lruSizeSum_lruEraseKey (k : String) (d : DataObj) (l : LruList)
    (h : lruFind k l = some d) :
    lruSizeSum (lruEraseKey k l) = lruSizeSum l - (d.size : Int) := by
  induction l with
  | nil => simp [lruFind] at h
  | cons e rest ih =>
      by_cases he : e.1 = k
      · simp only [lruFind, if_pos he, Option.some.injEq] at h
        simp [lruEraseKey, he, lruSizeSum, h]
      · simp only [lruFind, if_neg he] at h
        simp only [lruEraseKey, if_neg he]
        simp only [lruSizeSum, List.map_cons, List.sum_cons] at *
        rw [ih h]
        ring

theorem length_lruEraseKey (k : String) (d : DataObj) (l : LruList)
    (h : lruFind k l = some d) :
    (lruEraseKey k l).length + 1 = l.length := by
  induction l with
  | nil => simp [lruFind] at h
  | cons e rest ih =>
      by_cases he : e.1 = k
      · simp [lruEraseKey, he]
      · simp only [lruFind, if_neg he] at h
        simp only [lruEraseKey, if_neg he, List.length_cons]
        have := ih h
        omega

theorem mem_lruEraseKey_of_ne (k : String) (p : String × DataObj) (l : LruList)
    (hm : p ∈ l) (hne : p.1 ≠ k) : p ∈ lruEraseKey k l := by
  induction l with
  | nil => simp at hm
  | cons e rest ih =>
      by_cases he : e.1 = k
      · simp only [lruEraseKey, if_pos he]
        rcases List.mem_cons.mp hm with hm | hm
        · exact absurd (hm ▸ he) hne
        · exact hm
      · simp only [lruEraseKey, if_neg he]
        rcases List.mem_cons.mp hm with hm | hm
        · exact hm ▸ List.mem_cons_self _ _
        · exact List.mem_cons_of_mem _ (ih hm)

theorem lruSizeSum_nil : lruSizeSum [] = 0 := rfl

theorem lruSizeSum_cons (e : String × DataObj) (l : LruList) :
    lruSizeSum (e :: l) = (e.2.size : Int) + lruSizeSum l := by
  simp [lruSizeSum]

theorem lruSizeSum_reverse (l : LruList) : lruSizeSum l.reverse = lruSizeSum l := by
  unfold lruSizeSum
  rw [List.map_reverse, List.sum_reverse]

theorem noDupKeys_touch (k : String) (d : DataObj) (l : LruList) (hnd : NoDupKeys l) :
    NoDupKeys ((k, d) :: lruEraseKey k l) := by
  have h1 : lruFind k (lruEraseKey k l) = none := lruFind_lruEraseKey_self k l hnd
  have h2 : k ∉ (lruEraseKey k l).map Prod.fst := (lruFind_eq_none_iff _ _).mp h1
  unfold NoDupKeys
  rw [List.map_cons]
  exact List.nodup_cons.mpr ⟨h2, noDupKeys_lruEraseKey k l hnd⟩

/-! ### Preservation of the state invariant by every operation -/

theorem Cache.erase_capacity (k : String) (s : Cache) :
    (s.erase k).capacity = s.capacity := by
  unfold Cache.erase
  cases lruFind k s.lru <;> rfl

theorem foldl_erase_capacity (keys : List String) : ∀ s : Cache,
    (keys.foldl (fun st k => st.erase k) s).capacity = s.capacity := by
  induction keys with
  | nil => intro s; rfl
  | cons k rest ih =>
      intro s
      rw [List.foldl_cons, ih, Cache.erase_capacity]

theorem Cache.free_memory_capacity (s : Cache) :
    s.free_memory.capacity = s.capacity := by
  unfold Cache.free_memory
  by_cases h : s.usage ≤ s.capacity
  · rw [if_pos h]
  · rw [if_neg h, foldl_erase_capacity]

theorem cacheInv_construct (c : Int) : CacheInv (Cache.construct c) := by
  constructor <;> simp [Cache.construct, lruSizeSum, NoDupKeys]

theorem cacheInv_erase (k : String) (s : Cache) (h : CacheInv s) :
    CacheInv (s.erase k) := by
  obtain ⟨hu, hnd⟩ := h
  unfold Cache.erase
  cases hf : lruFind k s.lru with
  | none => exact ⟨hu, hnd⟩
  | some d =>
      refine ⟨?_, noDupKeys_lruEraseKey k s.lru hnd⟩
      show s.usage - (d.size : Int) = lruSizeSum (lruEraseKey k s.lru)
      rw [lruSizeSum_lruEraseKey k d s.lru hf, hu]

theorem cacheInv_insertRaw (k : String) (d : DataObj) (s : Cache) (h : CacheInv s) :
    CacheInv (s.insertRaw k d) := by
  obtain ⟨hu, hnd⟩ := h
  unfold Cache.insertRaw
  cases hf : lruFind k s.lru with
  | some old =>
      refine ⟨?_, noDupKeys_touch k d s.lru hnd⟩
      show s.usage - (old.size : Int) + (d.size : Int)
          = lruSizeSum ((k, d) :: lruEraseKey k s.lru)
      rw [lruSizeSum_cons, lruSizeSum_lruEraseKey k old s.lru hf, hu]
      ring
  | none =>
      refine ⟨?_, ?_⟩
      · show s.usage + (d.size : Int) = lruSizeSum ((k, d) :: s.lru)
        rw [lruSizeSum_cons, hu]
        ring
      · unfold NoDupKeys
        rw [List.map_cons]
        exact List.nodup_cons.mpr ⟨(lruFind_eq_none_iff _ _).mp hf, hnd⟩

theorem cacheInv_get (k : String) (s : Cache) (h : CacheInv s) :
    CacheInv (s.get k).2 := by
  obtain ⟨hu, hnd⟩ := h
  unfold Cache.get
  cases hf : lruFind k s.lru with
  | none => exact ⟨hu, hnd⟩
  | some d =>
      refine ⟨?_, noDupKeys_touch k d s.lru hnd⟩
      show s.usage = lruSizeSum ((k, d) :: lruEraseKey k s.lru)
      rw [lruSizeSum_cons, lruSizeSum_lruEraseKey k d s.lru hf, hu]
      ring

theorem cacheInv_clear (s : Cache) : CacheInv s.clear := by
  constructor <;> simp [Cache.clear, lruSizeSum, NoDupKeys]

theorem cacheInv_foldl_erase (keys : List String) : ∀ s : Cache,
    CacheInv s → CacheInv (keys.foldl (fun st k => st.erase k) s) := by
  induction keys with
  | nil => intro s h; exact h
  | cons k rest ih =>
      intro s h
      rw [List.foldl_cons]
      exact ih _ (cacheInv_erase k s h)

theorem cacheInv_free_memory (s : Cache) (h : CacheInv s) :
    CacheInv s.free_memory := by
  unfold Cache.free_memory
  by_cases hc : s.usage ≤ s.capacity
  · rw [if_pos hc]; exact h
  · rw [if_neg hc]; exact cacheInv_foldl_erase _ s h

theorem cacheInv_insert (k : String) (d : DataObj) (s : Cache) (h : CacheInv s) :
    CacheInv (s.insert k d) := by
  unfold Cache.insert
  by_cases hc : (s.insertRaw k d).capacity < (s.insertRaw k d).usage
  · simp only [if_pos hc]
    exact cacheInv_free_memory _ (cacheInv_insertRaw k d s h)
  · simp only [if_neg hc]
    exact cacheInv_insertRaw k d s h

theorem cacheInv_set_capacity (c : Int) (s : Cache) (h : CacheInv s) :
    CacheInv (s.set_capacity c) := by
  unfold Cache.set_capacity
  by_cases hc : 0 < c
  · rw [if_pos hc]
    exact cacheInv_free_memory _ ⟨h.1, h.2⟩
  · rw [if_neg hc]; exact h

/-- Every reachable cache state satisfies the usage-accounting and
unique-key invariant. -/
theorem reachable_cacheInv (s : Cache) (h : Reachable s) : CacheInv s := by
  induction h with
  | construct c => exact cacheInv_construct c
  | insert k d s _ ih => exact cacheInv_insert k d s ih
  | erase k s _ ih => exact cacheInv_erase k s ih
  | clear s _ ih => exact cacheInv_clear s
  | get k s _ ih => exact cacheInv_get k s ih
  | set_capacity c s _ ih => exact cacheInv_set_capacity c s ih
  | free_memory s _ ih => exact cacheInv_free_memory s ih

/-! ### The shape of the release selection -/

/-- The collection loop returns a prefix of the traversal: the shortest
prefix whose accumulated size reaches `delta` (counting from the initial
`released` value `rel`), or the whole traversal if it is exhausted
first. -/
theorem collectRelease_take (delta : Int) : ∀ (l : LruList) (rel : Int),
    ∃ n, n ≤ l.length ∧ collectRelease l delta rel = l.take n
      ∧ (delta ≤ rel + lruSizeSum (l.take n) ∨ n = l.length)
      ∧ ∀ m, m < n → rel + lruSizeSum (l.take m) < delta := by
  intro l
  induction l with
  | nil =>
      intro rel
      refine ⟨0, Nat.le_refl 0, rfl, Or.inr rfl, ?_⟩
      intro m hm
      exact absurd hm (Nat.not_lt_zero m)
  | cons e rest ih =>
      intro rel
      by_cases hrel : rel < delta
      · obtain ⟨n', hle, heq, hstop, hlt⟩ := ih (rel + (e.2.size : Int))
        refine ⟨n' + 1, by simpa using Nat.succ_le_succ hle, ?_, ?_, ?_⟩
        · rw [collectRelease, if_pos hrel, heq, List.take_succ_cons]
        · rcases hstop with h | h
          · left
            rw [List.take_succ_cons, lruSizeSum_cons]
            omega
          · right
            simp [h]
        · intro m hm
          cases m with
          | zero => simpa [lruSizeSum] using hrel
          | succ m' =>
              rw [List.take_succ_cons, lruSizeSum_cons]
              have := hlt m' (by omega)
              omega
      · refine ⟨0, Nat.zero_le _, ?_, Or.inl (by simpa [lruSizeSum] using hrel), ?_⟩
        · rw [collectRelease, if_neg hrel]
          rfl
        · intro m hm
          exact absurd hm (Nat.not_lt_zero m)

/-- Erasing a list of distinct keys whose entries are all present:
the usage drops by exactly the released size, the entry count drops by
the number of keys, and every untouched key keeps its stored payload. -/
theorem foldl_erase_spec : ∀ (P : LruList) (s : Cache),
    CacheInv s → (∀ p ∈ P, p ∈ s.lru) → (P.map Prod.fst).Nodup →
    ((P.map Prod.fst).foldl (fun st k => st.erase k) s).usage = s.usage - lruSizeSum P
    ∧ ((P.map Prod.fst).foldl (fun st k => st.erase k) s).lru.length + P.length
        = s.lru.length
    ∧ ∀ k, k ∉ P.map Prod.fst →
        lruFind k ((P.map Prod.fst).foldl (fun st k => st.erase k) s).lru
          = lruFind k s.lru := by
  intro P
  induction P with
  | nil =>
      intro s _ _ _
      exact ⟨by simp [lruSizeSum], by simp, fun k _ => rfl⟩
  | cons p rest ih =>
      intro s hinv hmem hnd
      obtain ⟨pk, pd⟩ := p
      have hp : (pk, pd) ∈ s.lru := hmem _ (List.mem_cons_self _ _)
      have hfind : lruFind pk s.lru = some pd :=
        lruFind_eq_some_of_nodup pk pd s.lru hinv.2 hp
      have hstep : s.erase pk
          = { s with usage := s.usage - (pd.size : Int), lru := lruEraseKey pk s.lru } := by
        unfold Cache.erase
        rw [hfind]
      simp only [List.map_cons, List.foldl_cons]
      have hndk : pk ∉ rest.map Prod.fst ∧ (rest.map Prod.fst).Nodup := by
        simpa [List.nodup_cons] using hnd
      have hmem' : ∀ q ∈ rest, q ∈ (s.erase pk).lru := by
        intro q hq
        rw [hstep]
        refine mem_lruEraseKey_of_ne pk q s.lru (hmem q (List.mem_cons_of_mem _ hq)) ?_
        intro hqk
        exact hndk.1 (hqk ▸ List.mem_map_of_mem Prod.fst hq)
      obtain ⟨husage, hlen, hfindrest⟩ :=
        ih (s.erase pk) (cacheInv_erase pk s hinv) hmem' hndk.2
      refine ⟨?_, ?_, ?_⟩
      · rw [husage, hstep, lruSizeSum_cons]
        simp only
        ring
      · have hlen1 : (lruEraseKey pk s.lru).length + 1 = s.lru.length :=
          length_lruEraseKey pk pd s.lru hfind
        rw [List.length_cons]
        have : (s.erase pk).lru.length = (lruEraseKey pk s.lru).length := by rw [hstep]
        omega
      · intro k hk
        have hkpk : k ≠ pk := by
          intro h
          exact hk (h ▸ List.mem_cons_self _ _)
        have hkrest : k ∉ rest.map Prod.fst := fun h => hk (List.mem_cons_of_mem _ h)
        rw [hfindrest k hkrest, hstep]
        exact lruFind_lruEraseKey_ne k pk s.lru hkpk

/-! ### Consequences of the eviction pass -/

theorem threshhold_le_capacity (s : Cache) (h : 0 ≤ s.capacity) :
    s.threshhold ≤ s.capacity := by
  unfold Cache.threshhold
  rw [Int.tdiv_eq_ediv (mul_nonneg h (by decide)) (by decide)]
  calc s.capacity * 85 / 100 ≤ s.capacity * 100 / 100 := by
        apply Int.ediv_le_ediv (by decide)
        nlinarith
    _ = s.capacity := by omega

theorem releaseEntries_take (s : Cache) :
    ∃ n, n ≤ s.lru.reverse.length ∧ s.releaseEntries = s.lru.reverse.take n
      ∧ (s.usage - s.threshhold ≤ lruSizeSum (s.lru.reverse.take n)
          ∨ n = s.lru.reverse.length)
      ∧ ∀ m, m < n →
          lruSizeSum (s.lru.reverse.take m) < s.usage - s.threshhold := by
  obtain ⟨n, hn, heq, hstop, hlt⟩ :=
    collectRelease_take (s.usage - s.threshhold) s.lru.reverse 0
  refine ⟨n, hn, heq, ?_, ?_⟩
  · rcases hstop with h | h
    · left; omega
    · right; exact h
  · intro m hm
    have := hlt m hm
    omega

theorem releaseEntries_mem (s : Cache) : ∀ p ∈ s.releaseEntries, p ∈ s.lru := by
  intro p hp
  obtain ⟨n, _, heq, _, _⟩ := releaseEntries_take s
  rw [heq] at hp
  exact List.mem_reverse.mp (List.take_subset n _ hp)

theorem releaseEntries_nodup (s : Cache) (h : NoDupKeys s.lru) :
    (s.releaseEntries.map Prod.fst).Nodup := by
  obtain ⟨n, _, heq, _, _⟩ := releaseEntries_take s
  rw [heq, List.map_take]
  have hrev : (s.lru.reverse.map Prod.fst).Nodup := by
    rw [List.map_reverse]
    exact List.nodup_reverse.mpr h
  exact hrev.sublist (List.take_sublist n _)

/-- When the eviction pass actually runs (`usage > capacity`), its net
effect on a consistent state: usage drops by the total released size, the
entry count drops by the number of released entries, and every key
outside the release set keeps its stored payload. -/
theorem free_memory_fold (s : Cache) (hinv : CacheInv s) (hgt : s.capacity < s.usage) :
    s.free_memory.usage = s.usage - lruSizeSum s.releaseEntries
    ∧ s.free_memory.lru.length + s.releaseEntries.length = s.lru.length
    ∧ ∀ k, k ∉ s.releaseEntries.map Prod.fst →
        lruFind k s.free_memory.lru = lruFind k s.lru := by
  have hspec := foldl_erase_spec s.releaseEntries s hinv (releaseEntries_mem s)
    (releaseEntries_nodup s hinv.2)
  have hfm : s.free_memory
      = ((s.releaseEntries.map Prod.fst).foldl (fun st k => st.erase k) s) := by
    unfold Cache.free_memory
    rw [if_neg (not_le.mpr hgt)]
  rw [hfm]
  exact hspec

/-- After `free_memory` runs on a consistent state with non-negative
capacity, usage is at or below capacity. -/
theorem free_memory_usage_le (s : Cache) (hinv : CacheInv s) (hcap : 0 ≤ s.capacity) :
    s.free_memory.usage ≤ s.capacity := by
  by_cases hc : s.usage ≤ s.capacity
  · have : s.free_memory = s := by
      unfold Cache.free_memory
      rw [if_pos hc]
    rw [this]
    exact hc
  · have hgt : s.capacity < s.usage := not_le.mp hc
    obtain ⟨husage, _, _⟩ := free_memory_fold s hinv hgt
    obtain ⟨n, _, heq, hstop, _⟩ := releaseEntries_take s
    rcases hstop with h | h
    · have hth := threshhold_le_capacity s hcap
      rw [husage, heq]
      omega
    · have hall : s.releaseEntries = s.lru.reverse := by
        rw [heq, h, List.take_length]
      have hsum : lruSizeSum s.releaseEntries = s.usage := by
        rw [hall, lruSizeSum_reverse, ← hinv.1]
      rw [husage, hsum]
      omega

/-- When the eviction pass runs on a consistent state with non-negative
capacity, it removes at least one entry. -/
theorem free_memory_length_lt (s : Cache) (hinv : CacheInv s) (hcap : 0 ≤ s.capacity)
    (hgt : s.capacity < s.usage) : s.free_memory.lru.length < s.lru.length := by
  obtain ⟨_, hlen, _⟩ := free_memory_fold s hinv hgt
  have hdelta : 0 < s.usage - s.threshhold := by
    have := threshhold_le_capacity s hcap
    omega
  have hne : s.lru.reverse ≠ [] := by
    intro h
    have : s.lru = [] := by
      rwa [List.reverse_eq_nil_iff] at h
    rw [hinv.1, this] at hgt
    simp [lruSizeSum] at hgt
    omega
  obtain ⟨e, rest, hrev⟩ := List.exists_cons_of_ne_nil hne
  have hpos : 0 < s.releaseEntries.length := by
    rw [Cache.releaseEntries, hrev, collectRelease, if_pos (by simpa using hdelta)]
    simp
  omega

/-! ### Further helper lemmas -/

theorem lruExists_eq_false_iff (k : String) (l : LruList) :
    lruExists k l = false ↔ lruFind k l = none := by
  unfold lruExists
  cases lruFind k l <;> simp

theorem Cache.erase_of_absent (k : String) (s : Cache)
    (h : lruFind k s.lru = none) : s.erase k = s := by
  unfold Cache.erase
  rw [h]

theorem Cache.insertRaw_capacity (k : String) (d : DataObj) (s : Cache) :
    (s.insertRaw k d).capacity = s.capacity := by
  unfold Cache.insertRaw
  cases lruFind k s.lru <;> rfl

/-- Folding `erase` over any key list leaves the stored payload of every
key outside the list unchanged. -/
theorem foldl_erase_find (keys : List String) : ∀ (s : Cache) (k : String), k ∉ keys →
    lruFind k ((keys.foldl (fun st k' => st.erase k') s).lru) = lruFind k s.lru := by
  induction keys with
  | nil => intro s k _; rfl
  | cons k0 rest ih =>
      intro s k hk
      rw [List.foldl_cons]
      have h1 : k ≠ k0 := fun h => hk (h ▸ List.mem_cons_self _ _)
      rw [ih _ k (fun h => hk (List.mem_cons_of_mem _ h))]
      unfold Cache.erase
      cases hf : lruFind k0 s.lru with
      | none => rfl
      | some d => exact lruFind_lruEraseKey_ne k k0 s.lru h1

/-- In a duplicate-free list split as `X ++ b :: Y ++ a :: Z`, any prefix
(`take n`) containing `a` also contains `b`. -/
theorem mem_take_of_mem_take_later {α : Type} (X Y Z : List α) (a b : α) (n : Nat)
    (hnd : (X ++ b :: Y ++ a :: Z).Nodup)
    (ha : a ∈ (X ++ b :: Y ++ a :: Z).take n) :
    b ∈ (X ++ b :: Y ++ a :: Z).take n := by
  by_cases hn : n ≤ (X ++ b :: Y).length
  · exfalso
    rw [List.take_append_of_le_length hn] at ha
    have ha2 : a ∈ (X ++ b :: Y) ++ Z :=
      List.mem_append_left Z (List.take_subset n _ ha)
    rw [List.nodup_middle, List.nodup_cons] at hnd
    exact hnd.1 ha2
  · rw [List.take_append_eq_append_take]
    have hall : (X ++ b :: Y).take n = X ++ b :: Y :=
      List.take_of_length_le (le_of_not_le hn)
    rw [hall]
    exact List.mem_append.mpr
      (Or.inl (List.mem_append.mpr (Or.inr (List.mem_cons_self _ _))))

/-! ### The claims -/

/-- C1: Usage-accounting invariant — in any sequential execution starting
from a freshly constructed cache (usage = 0), after every completed
operation (insert, erase, clear, get, set_capacity, eviction), the
cache's usage counter equals the sum of the sizes of all entries
currently present in the recency index. -/
theorem c1_usage_accounting_invariant (s : Cache) (h : Reachable s) :
    s.usage = lruSizeSum s.lru :=
  (reachable_cacheInv s h).1

theorem c1_usage_accounting_invariant_witness :
    (((Cache.construct 100).insert "A" ⟨40, 0⟩).erase "A").usage
      = lruSizeSum (((Cache.construct 100).insert "A" ⟨40, 0⟩).erase "A").lru :=
  c1_usage_accounting_invariant _
    (Reachable.erase "A" _ (Reachable.insert "A" ⟨40, 0⟩ _ (Reachable.construct 100)))

/-- C5: End-to-end scenario — from an empty cache with capacity 100 and
threshold ratio 0.85, inserting A(40), B(40), C(40) evicts A and leaves
exactly {B, C} with usage 80; then get(B) followed by inserting D(50)
evicts C and B, leaving exactly {D} with usage 50. -/
theorem c5_scenario :
    ((((Cache.construct 100).insert "A" ⟨40, 0⟩).insert "B" ⟨40, 1⟩).insert "C" ⟨40, 2⟩
        = { usage := 80, capacity := 100,
            lru := [("C", ⟨40, 2⟩), ("B", ⟨40, 1⟩)] })
    ∧ ((((Cache.construct 100).insert "A" ⟨40, 0⟩).insert "B" ⟨40, 1⟩).insert "C" ⟨40, 2⟩).existsKey "A"
        = false
    ∧ (((((((Cache.construct 100).insert "A" ⟨40, 0⟩).insert "B" ⟨40, 1⟩).insert
            "C" ⟨40, 2⟩).get "B").2).insert "D" ⟨50, 3⟩
        = { usage := 50, capacity := 100, lru := [("D", ⟨50, 3⟩)] }) := by
  decide

/-- C6: Overwrite semantics — for a key already present with an entry of
size `old.size`, the insert mutation replaces the stored payload, changes
usage by exactly `new_size - old_size` (no double-counting), and moves
the key to the most-recently-used position; when this leaves usage at or
under capacity the whole `insert` is exactly this mutation. -/
theorem c6_overwrite_semantics (s : Cache) (k : String) (d old : DataObj)
    (h : lruFind k s.lru = some old) :
    (s.insertRaw k d).usage = s.usage + (d.size : Int) - (old.size : Int)
    ∧ lruFind k (s.insertRaw k d).lru = some d
    ∧ (s.insertRaw k d).lru = (k, d) :: lruEraseKey k s.lru
    ∧ (s.insertRaw k d).capacity = s.capacity
    ∧ (¬ (s.insertRaw k d).capacity < (s.insertRaw k d).usage →
        s.insert k d = s.insertRaw k d) := by
  have hraw : s.insertRaw k d
      = { s with usage := s.usage - (old.size : Int) + (d.size : Int),
                 lru := (k, d) :: lruEraseKey k s.lru } := by
    unfold Cache.insertRaw
    rw [h]
  refine ⟨?_, ?_, ?_, ?_, ?_⟩
  · rw [hraw]
    show s.usage - (old.size : Int) + (d.size : Int)
        = s.usage + (d.size : Int) - (old.size : Int)
    ring
  · rw [hraw]
    simp [lruFind]
  · rw [hraw]
  · rw [hraw]
  · intro hno
    unfold Cache.insert
    rw [if_neg hno]

theorem c6_overwrite_semantics_witness :
    ((⟨7, 100, [("A", ⟨7, 0⟩)]⟩ : Cache).insertRaw "A" ⟨9, 1⟩).usage = 7 + (9 : Int) - (7 : Int)
    ∧ lruFind "A" ((⟨7, 100, [("A", ⟨7, 0⟩)]⟩ : Cache).insertRaw "A" ⟨9, 1⟩).lru = some ⟨9, 1⟩
    ∧ ((⟨7, 100, [("A", ⟨7, 0⟩)]⟩ : Cache).insertRaw "A" ⟨9, 1⟩).lru
        = ("A", ⟨9, 1⟩) :: lruEraseKey "A" [("A", ⟨7, 0⟩)]
    ∧ ((⟨7, 100, [("A", ⟨7, 0⟩)]⟩ : Cache).insertRaw "A" ⟨9, 1⟩).capacity = 100
    ∧ (¬ ((⟨7, 100, [("A", ⟨7, 0⟩)]⟩ : Cache).insertRaw "A" ⟨9, 1⟩).capacity
          < ((⟨7, 100, [("A", ⟨7, 0⟩)]⟩ : Cache).insertRaw "A" ⟨9, 1⟩).usage →
        (⟨7, 100, [("A", ⟨7, 0⟩)]⟩ : Cache).insert "A" ⟨9, 1⟩
          = (⟨7, 100, [("A", ⟨7, 0⟩)]⟩ : Cache).insertRaw "A" ⟨9, 1⟩) :=
  c6_overwrite_semantics ⟨7, 100, [("A", ⟨7, 0⟩)]⟩ "A" ⟨9, 1⟩ ⟨7, 0⟩ rfl

/-- C8: Idempotent erase — erasing the same key twice in a row yields the
same state as erasing it once (the second call is a no-op), and erasing
an absent key is a silent no-op. -/
theorem c8_idempotent_erase (s : Cache) (k : String) (hnd : NoDupKeys s.lru) :
    (s.erase k).erase k = s.erase k
    ∧ (lruExists k s.lru = false → s.erase k = s) := by
  constructor
  · cases hf : lruFind k s.lru with
    | none =>
        have h1 : s.erase k = s := Cache.erase_of_absent k s hf
        rw [h1]
        exact h1
    | some d =>
        have h1 : s.erase k
            = { s with usage := s.usage - (d.size : Int), lru := lruEraseKey k s.lru } := by
          unfold Cache.erase
          rw [hf]
        refine Cache.erase_of_absent k _ ?_
        rw [h1]
        exact lruFind_lruEraseKey_self k s.lru hnd
  · intro h
    exact Cache.erase_of_absent k s ((lruExists_eq_false_iff k s.lru).mp h)

theorem c8_idempotent_erase_witness :
    (((⟨5, 100, [("A", ⟨5, 0⟩)]⟩ : Cache).erase "A").erase "A"
        = (⟨5, 100, [("A", ⟨5, 0⟩)]⟩ : Cache).erase "A")
    ∧ (lruExists "A" ([("A", ⟨5, 0⟩)] : LruList) = false →
        (⟨5, 100, [("A", ⟨5, 0⟩)]⟩ : Cache).erase "A" = ⟨5, 100, [("A", ⟨5, 0⟩)]⟩) :=
  c8_idempotent_erase ⟨5, 100, [("A", ⟨5, 0⟩)]⟩ "A" (by decide)

/-- C9: get semantics — `get` of an absent key returns an explicit absent
value and leaves the cache unchanged; `get` of a present key returns the
stored payload and moves the key to the most-recently-used position,
changing neither usage nor capacity (and in particular never running
eviction). -/
theorem c9_get_semantics (s : Cache) (k : String) :
    (lruExists k s.lru = false → s.get k = (none, s))
    ∧ ∀ d, lruFind k s.lru = some d →
        (s.get k).1 = some d
        ∧ (s.get k).2.usage = s.usage
        ∧ (s.get k).2.capacity = s.capacity
        ∧ (s.get k).2.lru = (k, d) :: lruEraseKey k s.lru := by
  constructor
  · intro h
    have hf : lruFind k s.lru = none := (lruExists_eq_false_iff k s.lru).mp h
    unfold Cache.get
    rw [hf]
  · intro d hf
    have hg : s.get k = (some d, { s with lru := (k, d) :: lruEraseKey k s.lru }) := by
      unfold Cache.get
      rw [hf]
    rw [hg]
    exact ⟨rfl, rfl, rfl, rfl⟩

theorem c9_get_semantics_witness :
    ((⟨9, 100, [("A", ⟨4, 0⟩), ("B", ⟨5, 1⟩)]⟩ : Cache).get "B").1 = some ⟨5, 1⟩
    ∧ ((⟨9, 100, [("A", ⟨4, 0⟩), ("B", ⟨5, 1⟩)]⟩ : Cache).get "B").2.usage = 9
    ∧ ((⟨9, 100, [("A", ⟨4, 0⟩), ("B", ⟨5, 1⟩)]⟩ : Cache).get "B").2.capacity = 100
    ∧ ((⟨9, 100, [("A", ⟨4, 0⟩), ("B", ⟨5, 1⟩)]⟩ : Cache).get "B").2.lru
        = ("B", ⟨5, 1⟩) :: lruEraseKey "B" [("A", ⟨4, 0⟩), ("B", ⟨5, 1⟩)] :=
  (c9_get_semantics ⟨9, 100, [("A", ⟨4, 0⟩), ("B", ⟨5, 1⟩)]⟩ "B").2 ⟨5, 1⟩ (by decide)

/-- C3: Capacity convergence — a sequential insert that triggers eviction
ends with usage at or under capacity whenever no single entry's size in
the pre-eviction state exceeds the capacity. -/
theorem c3_capacity_convergence (s : Cache) (k : String) (d : DataObj)
    (hinv : CacheInv s)
    (htrig : s.capacity < (s.insertRaw k d).usage)
    (hbound : ∀ p ∈ (s.insertRaw k d).lru, (p.2.size : Int) ≤ s.capacity) :
    (s.insert k d).usage ≤ (s.insert k d).capacity := by
  have hd : ((k, d) : String × DataObj) ∈ (s.insertRaw k d).lru := by
    unfold Cache.insertRaw
    cases lruFind k s.lru with
    | some old => exact List.mem_cons_self _ _
    | none => exact List.mem_cons_self _ _
  have hcap : 0 ≤ s.capacity := by
    have h1 : (d.size : Int) ≤ s.capacity := hbound (k, d) hd
    omega
  have htrig' : (s.insertRaw k d).capacity < (s.insertRaw k d).usage := by
    rw [Cache.insertRaw_capacity]
    exact htrig
  have hins : s.insert k d = (s.insertRaw k d).free_memory := by
    unfold Cache.insert
    rw [if_pos htrig']
  rw [hins, Cache.free_memory_capacity, Cache.insertRaw_capacity]
  have hle := free_memory_usage_le (s.insertRaw k d) (cacheInv_insertRaw k d s hinv)
    (by rw [Cache.insertRaw_capacity]; exact hcap)
  rw [Cache.insertRaw_capacity] at hle
  exact hle

theorem c3_capacity_convergence_witness :
    ((⟨80, 100, [("C", ⟨40, 2⟩), ("B", ⟨40, 1⟩)]⟩ : Cache).insert "D" ⟨50, 3⟩).usage
      ≤ ((⟨80, 100, [("C", ⟨40, 2⟩), ("B", ⟨40, 1⟩)]⟩ : Cache).insert "D" ⟨50, 3⟩).capacity :=
  c3_capacity_convergence ⟨80, 100, [("C", ⟨40, 2⟩), ("B", ⟨40, 1⟩)]⟩ "D" ⟨50, 3⟩
    (by decide) (by decide) (by decide)

/-- C7: set_capacity semantics — a non-positive new capacity is silently
ignored (full state unchanged, no error); a positive one is installed and
the eviction algorithm runs immediately, removing entries exactly when
usage exceeds the new capacity (and then bringing usage at or under
it). -/
theorem c7_set_capacity_semantics (s : Cache) (c : Int) (hinv : CacheInv s) :
    (c ≤ 0 → s.set_capacity c = s)
    ∧ (0 < c →
        (s.set_capacity c).capacity = c
        ∧ ((s.set_capacity c).lru.length < s.lru.length ↔ c < s.usage)
        ∧ (s.set_capacity c).usage ≤ c) := by
  constructor
  · intro h
    unfold Cache.set_capacity
    rw [if_neg (not_lt.mpr h)]
  · intro h
    have hset : s.set_capacity c = Cache.free_memory { s with capacity := c } := by
      unfold Cache.set_capacity
      rw [if_pos h]
    have hinv' : CacheInv ({ s with capacity := c } : Cache) := ⟨hinv.1, hinv.2⟩
    refine ⟨?_, ?_, ?_⟩
    · rw [hset, Cache.free_memory_capacity]
    · rw [hset]
      constructor
      · intro hlt
        by_contra hle
        push_neg at hle
        have hle' : ({ s with capacity := c } : Cache).usage
            ≤ ({ s with capacity := c } : Cache).capacity := hle
        have hnoop : Cache.free_memory { s with capacity := c }
            = { s with capacity := c } := by
          unfold Cache.free_memory
          rw [if_pos hle']
        rw [hnoop] at hlt
        exact absurd hlt (lt_irrefl _)
      · intro hlt
        exact free_memory_length_lt _ hinv' (le_of_lt h) hlt
    · rw [hset]
      exact free_memory_usage_le _ hinv' (le_of_lt h)

theorem c7_set_capacity_semantics_witness :
    ((5 : Int) ≤ 0 → (⟨10, 20, [("A", ⟨10, 0⟩)]⟩ : Cache).set_capacity 5
        = ⟨10, 20, [("A", ⟨10, 0⟩)]⟩)
    ∧ ((0 : Int) < 5 →
        ((⟨10, 20, [("A", ⟨10, 0⟩)]⟩ : Cache).set_capacity 5).capacity = 5
        ∧ (((⟨10, 20, [("A", ⟨10, 0⟩)]⟩ : Cache).set_capacity 5).lru.length
              < ([("A", ⟨10, 0⟩)] : LruList).length
            ↔ (5 : Int) < 10)
        ∧ ((⟨10, 20, [("A", ⟨10, 0⟩)]⟩ : Cache).set_capacity 5).usage ≤ 5) :=
  c7_set_capacity_semantics ⟨10, 20, [("A", ⟨10, 0⟩)]⟩ 5 (by decide)

/-- Inserting a single entry whose size exceeds a non-negative capacity
into an empty cache: the eviction traversal reaches the just-inserted
(most-recently-used) entry and removes it, leaving the cache empty with
usage 0. -/
theorem insert_single_oversized (c : Int) (k : String) (d : DataObj)
    (hc : 0 ≤ c) (hd : c < (d.size : Int)) :
    (Cache.construct c).insert k d = Cache.construct c := by
  have hraw : (Cache.construct c).insertRaw k d
      = ⟨0 + (d.size : Int), c, [(k, d)]⟩ := rfl
  have hinv1 : CacheInv (⟨0 + (d.size : Int), c, [(k, d)]⟩ : Cache) :=
    ⟨by simp [lruSizeSum], by simp [NoDupKeys]⟩
  have hgt : (⟨0 + (d.size : Int), c, [(k, d)]⟩ : Cache).capacity
      < (⟨0 + (d.size : Int), c, [(k, d)]⟩ : Cache).usage := by
    show c < 0 + (d.size : Int)
    omega
  have hth : Int.tdiv (c * 85) 100 ≤ c :=
    threshhold_le_capacity (⟨0 + (d.size : Int), c, [(k, d)]⟩ : Cache) hc
  have hrel : (⟨0 + (d.size : Int), c, [(k, d)]⟩ : Cache).releaseEntries = [(k, d)] := by
    show collectRelease [(k, d)] (0 + (d.size : Int) - Int.tdiv (c * 85) 100) 0 = [(k, d)]
    simp only [collectRelease]
    rw [if_pos (by omega : (0 : Int) < 0 + (d.size : Int) - Int.tdiv (c * 85) 100)]
  obtain ⟨hu, hlen, _⟩ :=
    free_memory_fold (⟨0 + (d.size : Int), c, [(k, d)]⟩ : Cache) hinv1 hgt
  rw [hrel] at hu hlen
  have husage : ((⟨0 + (d.size : Int), c, [(k, d)]⟩ : Cache).free_memory).usage = 0 := by
    rw [hu]
    simp [lruSizeSum]
  have hlru : ((⟨0 + (d.size : Int), c, [(k, d)]⟩ : Cache).free_memory).lru = [] := by
    refine List.length_eq_zero.mp ?_
    simp only [List.length_cons, List.length_nil] at hlen
    omega
  have hcap : ((⟨0 + (d.size : Int), c, [(k, d)]⟩ : Cache).free_memory).capacity = c :=
    Cache.free_memory_capacity _
  have hins : (Cache.construct c).insert k d
      = (⟨0 + (d.size : Int), c, [(k, d)]⟩ : Cache).free_memory := by
    unfold Cache.insert
    rw [hraw, if_pos hgt]
  rw [hins]
  calc (⟨0 + (d.size : Int), c, [(k, d)]⟩ : Cache).free_memory
      = ⟨((⟨0 + (d.size : Int), c, [(k, d)]⟩ : Cache).free_memory).usage,
         ((⟨0 + (d.size : Int), c, [(k, d)]⟩ : Cache).free_memory).capacity,
         ((⟨0 + (d.size : Int), c, [(k, d)]⟩ : Cache).free_memory).lru⟩ := rfl
    _ = ⟨0, c, []⟩ := by rw [husage, hlru, hcap]

/-- C10 counterexample: the constructor does not validate its capacity,
so a cache with capacity -1 is a freshly constructed state; inserting a
single entry of size 0 (which exceeds that capacity) completes with the
entry still present and usage above capacity — the claimed unconditional
`usage <= capacity` and the claimed removal of the oversized entry both
fail. -/
theorem c10_counterexample :
    ¬ (((Cache.construct (-1)).insert "A" ⟨0, 0⟩).usage
        ≤ ((Cache.construct (-1)).insert "A" ⟨0, 0⟩).capacity)
    ∧ ((Cache.construct (-1)).insert "A" ⟨0, 0⟩).lru ≠ [] := by
  decide

/-- C10 (amended): provided the configured capacity is non-negative —
inserting a single entry whose size exceeds capacity into an empty cache
triggers an eviction that removes that very entry, leaving the cache
empty with usage 0; and after every sequential insert completes
(including its eviction pass), `usage <= capacity` holds. -/
theorem c10_insert_converges (s : Cache) (k : String) (d : DataObj) (c : Int) :
    (CacheInv s → 0 ≤ s.capacity →
        (s.insert k d).usage ≤ (s.insert k d).capacity)
    ∧ (0 ≤ c → c < (d.size : Int) →
        (Cache.construct c).insert k d = Cache.construct c) := by
  constructor
  · intro hinv hcap
    by_cases htrig : (s.insertRaw k d).capacity < (s.insertRaw k d).usage
    · have hins : s.insert k d = (s.insertRaw k d).free_memory := by
        unfold Cache.insert
        rw [if_pos htrig]
      rw [hins, Cache.free_memory_capacity]
      exact free_memory_usage_le _ (cacheInv_insertRaw k d s hinv)
        (by rw [Cache.insertRaw_capacity]; exact hcap)
    · have hins : s.insert k d = s.insertRaw k d := by
        unfold Cache.insert
        rw [if_neg htrig]
      rw [hins]
      exact not_lt.mp htrig
  · intro hc hd
    exact insert_single_oversized c k d hc hd

theorem c10_insert_converges_witness :
    ((⟨0, 10, []⟩ : Cache).insert "X" ⟨15, 0⟩).usage
      ≤ ((⟨0, 10, []⟩ : Cache).insert "X" ⟨15, 0⟩).capacity
    ∧ (Cache.construct 10).insert "X" ⟨15, 0⟩ = Cache.construct 10 :=
  ⟨(c10_insert_converges ⟨0, 10, []⟩ "X" ⟨15, 0⟩ 10).1 (by decide) (by decide),
   (c10_insert_converges ⟨0, 10, []⟩ "X" ⟨15, 0⟩ 10).2 (by decide) (by decide)⟩

/-- The eviction routine exactly as claim C2 words it: threshold computed
as floor(capacity * 0.85) — `Int.fdiv` is the flooring division —
followed by the same release selection and erasures as
`Cache.free_memory`.  Stated from the claim's words, for comparison with
the source, whose `double`-to-`int64_t` conversion truncates toward
zero. -/
def Cache.free_memory_floor (s : Cache) : Cache :=
  if s.usage ≤ s.capacity then s
  else ((collectRelease s.lru.reverse (s.usage - Int.fdiv (s.capacity * 85) 100) 0).map
          Prod.fst).foldl (fun st k => st.erase k) s

/-- C2 counterexample: on the freshly constructed cache with capacity -1
(the constructor does not validate capacity) holding one entry of size 0,
eviction is invoked with usage 0 > capacity -1; the claim's
floor(capacity * 0.85) = -1 gives delta 1 and would erase the entry,
while the source truncates toward zero (threshold 0, delta 0) and erases
nothing. -/
theorem c2_counterexample :
    Cache.free_memory_floor ((Cache.construct (-1)).insert "A" ⟨0, 0⟩)
      ≠ Cache.free_memory ((Cache.construct (-1)).insert "A" ⟨0, 0⟩) := by
  decide

/-- C2 (amended): whenever the eviction routine is invoked sequentially
with usage <= capacity it is a no-op leaving the whole cache state
unchanged; otherwise it computes threshold as capacity * 0.85 truncated
toward zero (equal to floor(capacity * 0.85) whenever capacity is
non-negative) and delta = usage - threshold, selects from the
least-recently-used end the shortest prefix of entries whose accumulated
sizes reach at least delta (or all entries if the traversal is exhausted
first), and erases exactly the keys of that prefix. -/
theorem c2_eviction_algorithm (s : Cache) :
    (s.usage ≤ s.capacity → s.free_memory = s)
    ∧ (s.capacity < s.usage →
        s.free_memory
          = ((s.releaseEntries.map Prod.fst).foldl (fun st k => st.erase k) s)
        ∧ ∃ n, n ≤ s.lru.reverse.length
            ∧ s.releaseEntries = s.lru.reverse.take n
            ∧ (s.usage - s.threshhold ≤ lruSizeSum (s.lru.reverse.take n)
                ∨ n = s.lru.reverse.length)
            ∧ ∀ m, m < n →
                lruSizeSum (s.lru.reverse.take m) < s.usage - s.threshhold)
    ∧ (0 ≤ s.capacity → s.threshhold = Int.fdiv (s.capacity * 85) 100) := by
  refine ⟨?_, ?_, ?_⟩
  · intro h
    unfold Cache.free_memory
    rw [if_pos h]
  · intro h
    refine ⟨?_, releaseEntries_take s⟩
    unfold Cache.free_memory
    rw [if_neg (not_le.mpr h)]
  · intro h
    unfold Cache.threshhold
    rw [Int.tdiv_eq_ediv (mul_nonneg h (by decide)) (by decide),
        Int.fdiv_eq_ediv _ (by decide)]

theorem c2_eviction_algorithm_witness :
    ((⟨50, 100, [("A", ⟨50, 0⟩)]⟩ : Cache).free_memory = ⟨50, 100, [("A", ⟨50, 0⟩)]⟩)
    ∧ ((⟨120, 100, [("C", ⟨40, 2⟩), ("B", ⟨40, 1⟩), ("A", ⟨40, 0⟩)]⟩ : Cache).free_memory
        = (((⟨120, 100, [("C", ⟨40, 2⟩), ("B", ⟨40, 1⟩), ("A", ⟨40, 0⟩)]⟩ : Cache).releaseEntries.map
              Prod.fst).foldl (fun st k => st.erase k)
            ⟨120, 100, [("C", ⟨40, 2⟩), ("B", ⟨40, 1⟩), ("A", ⟨40, 0⟩)]⟩)) :=
  ⟨(c2_eviction_algorithm ⟨50, 100, [("A", ⟨50, 0⟩)]⟩).1 (by decide),
   ((c2_eviction_algorithm ⟨120, 100, [("C", ⟨40, 2⟩), ("B", ⟨40, 1⟩), ("A", ⟨40, 0⟩)]⟩).2.1
      (by decide)).1⟩

/-- C4: LRU ordering — for two keys A and B both present, A accessed more
recently than B (A strictly closer to the most-recently-used end) and
neither touched since: B is chosen for eviction before A.  Concretely:
any release set containing A contains B; an eviction pass needing exactly
one removal never removes A (A keeps its entry); and when A and B are the
only entries, a one-removal pass releases exactly B. -/
theorem c4_lru_ordering (s : Cache) (A B : String) (da db : DataObj)
    (l1 l2 l3 : LruList) (hnd : NoDupKeys s.lru)
    (hsplit : s.lru = l1 ++ (A, da) :: l2 ++ (B, db) :: l3) :
    (A ∈ s.releaseEntries.map Prod.fst → B ∈ s.releaseEntries.map Prod.fst)
    ∧ ((s.releaseEntries.map Prod.fst).length = 1 →
        lruFind A s.free_memory.lru = some da)
    ∧ (l1 = [] → l2 = [] → l3 = [] →
        (s.releaseEntries.map Prod.fst).length = 1 →
        s.releaseEntries.map Prod.fst = [B]) := by
  obtain ⟨n, hn, heq, _, _⟩ := releaseEntries_take s
  have hkeys : s.releaseEntries.map Prod.fst = (s.lru.reverse.map Prod.fst).take n := by
    rw [heq, List.map_take]
  have hKnodup : (s.lru.reverse.map Prod.fst).Nodup := by
    rw [List.map_reverse]
    exact List.nodup_reverse.mpr hnd
  have hK : s.lru.reverse.map Prod.fst
      = ((l3.map Prod.fst).reverse ++ B :: (l2.map Prod.fst).reverse)
          ++ A :: (l1.map Prod.fst).reverse := by
    rw [hsplit]
    simp [List.map_reverse, List.reverse_append, List.append_assoc]
  have hc1 : A ∈ s.releaseEntries.map Prod.fst → B ∈ s.releaseEntries.map Prod.fst := by
    intro hA
    rw [hkeys, hK] at hA ⊢
    exact mem_take_of_mem_take_later _ _ _ A B n (hK ▸ hKnodup) hA
  have hAnotin : A ∉ ((l3.map Prod.fst).reverse ++ B :: (l2.map Prod.fst).reverse)
      ++ (l1.map Prod.fst).reverse := by
    have h2 := hK ▸ hKnodup
    rw [List.nodup_middle, List.nodup_cons] at h2
    exact h2.1
  have hAB : A ≠ B := by
    intro hABeq
    apply hAnotin
    apply List.mem_append_left
    rw [hABeq]
    exact List.mem_append.mpr (Or.inr (List.mem_cons_self _ _))
  have hc2 : (s.releaseEntries.map Prod.fst).length = 1 →
      lruFind A s.free_memory.lru = some da := by
    intro hlen1
    have hAnotkeys : A ∉ s.releaseEntries.map Prod.fst := by
      intro hA
      have hB := hc1 hA
      obtain ⟨x, hx⟩ := List.length_eq_one.mp hlen1
      rw [hx] at hA hB
      have hA2 : A = x := by simpa using hA
      have hB2 : B = x := by simpa using hB
      exact hAB (hA2.trans hB2.symm)
    have hfindA : lruFind A s.lru = some da := by
      apply lruFind_eq_some_of_nodup A da s.lru hnd
      rw [hsplit]
      exact List.mem_append.mpr
        (Or.inl (List.mem_append.mpr (Or.inr (List.mem_cons_self _ _))))
    unfold Cache.free_memory
    by_cases hc : s.usage ≤ s.capacity
    · rw [if_pos hc]
      exact hfindA
    · rw [if_neg hc]
      rw [foldl_erase_find _ s A hAnotkeys]
      exact hfindA
  refine ⟨hc1, hc2, ?_⟩
  intro h1 h2 h3 hlen1
  subst h1
  subst h2
  subst h3
  have hlru : s.lru = [(A, da), (B, db)] := by simpa using hsplit
  rw [hkeys] at hlen1 ⊢
  rw [hlru] at hlen1 ⊢
  have hBA : (([(A, da), (B, db)] : LruList).reverse.map Prod.fst) = [B, A] := rfl
  rw [hBA] at hlen1 ⊢
  rcases n with _ | _ | n
  · simp at hlen1
  · rfl
  · simp [List.take_succ_cons] at hlen1

theorem c4_lru_ordering_witness :
    ("A" ∈ (⟨120, 100, [("A", ⟨40, 0⟩), ("B", ⟨40, 1⟩)]⟩ : Cache).releaseEntries.map Prod.fst →
      "B" ∈ (⟨120, 100, [("A", ⟨40, 0⟩), ("B", ⟨40, 1⟩)]⟩ : Cache).releaseEntries.map Prod.fst)
    ∧ (((⟨120, 100, [("A", ⟨40, 0⟩), ("B", ⟨40, 1⟩)]⟩ : Cache).releaseEntries.map Prod.fst).length = 1 →
        lruFind "A" (⟨120, 100, [("A", ⟨40, 0⟩), ("B", ⟨40, 1⟩)]⟩ : Cache).free_memory.lru
          = some ⟨40, 0⟩)
    ∧ (([] : LruList) = [] → ([] : LruList) = [] → ([] : LruList) = [] →
        ((⟨120, 100, [("A", ⟨40, 0⟩), ("B", ⟨40, 1⟩)]⟩ : Cache).releaseEntries.map Prod.fst).length = 1 →
        (⟨120, 100, [("A", ⟨40, 0⟩), ("B", ⟨40, 1⟩)]⟩ : Cache).releaseEntries.map Prod.fst = ["B"]) :=
  c4_lru_ordering ⟨120, 100, [("A", ⟨40, 0⟩), ("B", ⟨40, 1⟩)]⟩ "A" "B" ⟨40, 0⟩ ⟨40, 1⟩
    [] [] [] (by decide) rfl
